import Mathlib

/-!
Verification of the `pack` MessagePack codec (src/include/pack/msgpack.hpp).

The C++ header is shallowly embedded here:
* machine integers are `Nat` / `Int` with explicit `% 2^w` truncation;
* byte streams (`std::ostream` / `std::istream`) are `List Nat` of byte
  values, consumed from the front; the decoder functions return the
  remaining stream so that "peek / get / unget" behaviour (how many bytes
  were consumed when an operation fails) is visible in the result;
* the compile-time `std::endian::native` branch is a `Endian` parameter:
  every function of the header that branches on host endianness takes the
  host as an explicit argument;
* IEEE-754 values are represented by their bit patterns (the codec never
  does float arithmetic, it only moves the raw bits);
* C++ exceptions become an `Err` value carried in the result record
  (`std::invalid_argument` "No more data to read" = `EndOfInput`,
  `std::runtime_error` "ByteArray does not match type .." = `TypeMismatch`,
  `std::length_error` "Narrowing conversion" = `NarrowingConversion`,
  `std::length_error` capacity messages = `CapacityTooSmall`,
  encode-side length errors = `LengthOverflow`).
-/

namespace Pack

/-! ### Byte sequences

`toBytesLE w v` is the little-endian (least significant first) list of the
`w` memory bytes of the `w`-byte machine word holding `v`; `ofBytesLE` is
its inverse.  These are the ground truth used to model `std::bit_cast` to
`std::array<uint8_t, sizeof(T)>`, `memcpy`, and raw `read`/`write` calls. -/

def toBytesLE : Nat → Nat → List Nat
  | 0, _ => []
  | w + 1, v => v % 256 :: toBytesLE w (v / 256)

def ofBytesLE : List Nat → Nat
  | [] => 0
  | b :: bs => b + 256 * ofBytesLE bs

theorem length_toBytesLE (w v : Nat) : (toBytesLE w v).length = w := by
  induction w generalizing v with
  | zero => rfl
  | succ k ih => simp [toBytesLE, ih]

theorem mem_toBytesLE_lt {w v b : Nat} (h : b ∈ toBytesLE w v) : b < 256 := by
  induction w generalizing v with
  | zero => simp [toBytesLE] at h
  | succ k ih =>
    simp only [toBytesLE, List.mem_cons] at h
    rcases h with h | h
    · subst h; exact Nat.mod_lt _ (by norm_num)
    · exact ih h

theorem ofBytesLE_toBytesLE (w v : Nat) :
    ofBytesLE (toBytesLE w v) = v % 2 ^ (8 * w) := by
  induction w generalizing v with
  | zero => simp [toBytesLE, ofBytesLE, Nat.mod_one]
  | succ k ih =>
    simp only [toBytesLE, ofBytesLE, ih]
    have h2 : (2 : Nat) ^ (8 * (k + 1)) = 256 * 2 ^ (8 * k) := by
      rw [Nat.mul_add, Nat.pow_add]; ring
    rw [h2, Nat.mod_mul]

theorem ofBytesLE_toBytesLE_of_lt {w v : Nat} (h : v < 2 ^ (8 * w)) :
    ofBytesLE (toBytesLE w v) = v := by
  rw [ofBytesLE_toBytesLE, Nat.mod_eq_of_lt h]

theorem toBytesLE_ofBytesLE (l : List Nat) (hb : ∀ b ∈ l, b < 256) :
    toBytesLE l.length (ofBytesLE l) = l := by
  induction l with
  | nil => rfl
  | cons b bs ih =>
    have hblt : b < 256 := hb b (List.mem_cons_self _ _)
    simp only [List.length_cons, toBytesLE, ofBytesLE]
    have h1 : (b + 256 * ofBytesLE bs) % 256 = b := by omega
    have h2 : (b + 256 * ofBytesLE bs) / 256 = ofBytesLE bs := by omega
    rw [h1, h2, ih fun x hx => hb x (List.mem_cons_of_mem _ hx)]

theorem ofBytesLE_lt (l : List Nat) (hb : ∀ b ∈ l, b < 256) :
    ofBytesLE l < 2 ^ (8 * l.length) := by
  induction l with
  | nil => simp [ofBytesLE]
  | cons b bs ih =>
    have hblt : b < 256 := hb b (List.mem_cons_self _ _)
    have hbs := ih fun x hx => hb x (List.mem_cons_of_mem _ hx)
    simp only [ofBytesLE, List.length_cons]
    have h2 : (2 : Nat) ^ (8 * (bs.length + 1)) = 256 * 2 ^ (8 * bs.length) := by
      rw [Nat.mul_add, Nat.pow_add]; ring
    rw [h2]; omega

/-! ### Host endianness and the byte-order routines

`Byteswap` mirrors the header's generic `Byteswap` (bit_cast the word to a
byte array, reverse it, bit_cast back): at the value level this is reversal
of the little-endian byte list, independent of the host.  `ToBigEndian` and
`ToLittleEndian` mirror the two `constexpr` host branches of the header
verbatim: BOTH swap when the host is little-endian and are the identity
when the host is big-endian (this is what the source does; the two bodies
are identical). -/

inductive Endian where
  | little
  | big
deriving DecidableEq

def Byteswap (w v : Nat) : Nat := ofBytesLE (toBytesLE w v).reverse

def ToBigEndian : Endian → Nat → Nat → Nat
  | .little, w, v => Byteswap w v
  | .big, _, v => v

def ToLittleEndian : Endian → Nat → Nat → Nat
  | .little, w, v => Byteswap w v
  | .big, _, v => v

/-- memory bytes (address order) of the `w`-byte word holding value `v` on
the given host. -/
def memBytes : Endian → Nat → Nat → List Nat
  | .little, w, v => toBytesLE w v
  | .big, w, v => (toBytesLE w v).reverse

/-- value of a `w`-byte word whose memory bytes (address order) are `l` on
the given host. -/
def ofMem : Endian → List Nat → Nat
  | .little, l => ofBytesLE l
  | .big, l => ofBytesLE l.reverse

/-- the big-endian wire bytes of `v` at width `w` (most significant first). -/
def beBytes (w v : Nat) : List Nat := (toBytesLE w v).reverse

theorem length_beBytes (w v : Nat) : (beBytes w v).length = w := by
  simp [beBytes, length_toBytesLE]

theorem toBytesLE_reverse_elts {w v : Nat} :
    ∀ b ∈ (toBytesLE w v).reverse, b < 256 := by
  intro b hb
  exact mem_toBytesLE_lt (List.mem_reverse.mp hb)

theorem toBytesLE_ofBytesLE_reverse (w v : Nat) :
    toBytesLE w (ofBytesLE (toBytesLE w v).reverse) = (toBytesLE w v).reverse := by
  have h := toBytesLE_ofBytesLE (toBytesLE w v).reverse toBytesLE_reverse_elts
  rwa [List.length_reverse, length_toBytesLE] at h

theorem byteswap_byteswap {w v : Nat} (h : v < 2 ^ (8 * w)) :
    Byteswap w (Byteswap w v) = v := by
  unfold Byteswap
  rw [toBytesLE_ofBytesLE_reverse, List.reverse_reverse,
    ofBytesLE_toBytesLE_of_lt h]

theorem byteswap_lt (w v : Nat) : Byteswap w v < 2 ^ (8 * w) := by
  unfold Byteswap
  have := ofBytesLE_lt (toBytesLE w v).reverse toBytesLE_reverse_elts
  simpa [length_toBytesLE] using this

/-- a multi-byte word written by the encoder: the memory bytes of
`ToBigEndian host v`, as `mRef.write((char *)&convert, w)` emits them. -/
def writeWord (host : Endian) (w v : Nat) : List Nat :=
  memBytes host w (ToBigEndian host w v)

/-- on either host, the wire bytes written are big-endian. -/
theorem writeWord_eq (host : Endian) (w v : Nat) :
    writeWord host w v = beBytes w v := by
  cases host with
  | little =>
    simp only [writeWord, memBytes, ToBigEndian, Byteswap, beBytes]
    exact toBytesLE_ofBytesLE_reverse w v
  | big => rfl

/-- a multi-byte word read by the decoder: raw bytes land in the word's
memory, then `ToLittleEndian` is applied. -/
def readWord (host : Endian) (w : Nat) (l : List Nat) : Nat :=
  ToLittleEndian host w (ofMem host l)

/-- on either host, reading back the big-endian wire bytes of `v` yields `v`. -/
theorem readWord_beBytes (host : Endian) {w v : Nat} (h : v < 2 ^ (8 * w)) :
    readWord host w (beBytes w v) = v := by
  cases host with
  | little =>
    simp only [readWord, ofMem, ToLittleEndian, beBytes, Byteswap]
    rw [toBytesLE_ofBytesLE_reverse, List.reverse_reverse,
      ofBytesLE_toBytesLE_of_lt h]
  | big =>
    simp only [readWord, ofMem, ToLittleEndian, beBytes, List.reverse_reverse]
    exact ofBytesLE_toBytesLE_of_lt h

/-! ### Format table (the `Formats` enum and the mask constants) -/

def POS_FIXINT_MAX : Nat := 0b1111111
def POS_FIXINT_MASK : Nat := 0b10000000
def FIXSTR_MASK : Nat := 0b10100000
def FIXARR_MASK : Nat := 0b10010000
def FIXSTR_MAX : Nat := 0b11111
/-- `NEG_FIXINT_MIN` is the `int8_t` constant `0b11100000`, i.e. `-32`. -/
def NEG_FIXINT_MIN : Int := -32

def BFALSE : Nat := 0xc2
def BTRUE : Nat := 0xc3
def FLOAT32 : Nat := 0xca
def FLOAT64 : Nat := 0xcb
def UINT8 : Nat := 0xcc
def UINT16 : Nat := 0xcd
def UINT32 : Nat := 0xce
def UINT64 : Nat := 0xcf
def INT8 : Nat := 0xd0
def INT16 : Nat := 0xd1
def INT32 : Nat := 0xd2
def INT64 : Nat := 0xd3
def STR8 : Nat := 0xd9
def STR16 : Nat := 0xda
def STR32 : Nat := 0xdb
def ARR16 : Nat := 0xdc
def ARR32 : Nat := 0xdd

/-! ### Errors and decode results -/

/-- the error taxonomy; each constructor corresponds to one family of
exceptions thrown by the header (see the file header comment). -/
inductive Err where
  | EndOfInput
  | TypeMismatch
  | NarrowingConversion
  | CapacityTooSmall
  | LengthOverflow
deriving DecidableEq

/-- result of one `Unpacker::Deserialize` call: the exception thrown (if
any), the contents of the `out` destination afterwards, and the bytes left
on the source stream (which encodes the stream position: peeked-but-not-
consumed bytes are still present). -/
structure DState (α : Type) where
  err : Option Err
  dest : α
  rest : List Nat
deriving DecidableEq

/-! ### Packer (encoder)

Each `Packer::Serialize` overload becomes one pure function from the value
to the bytes appended to the sink.  Overloads whose output depends on the
compile-time host endianness branch take the host as an argument. -/

/-- `Packer::Serialize` for `bool`. -/
def serializeBool (val : Bool) : List Nat :=
  [if val then BTRUE else BFALSE]

/-- `Packer::Serialize` for unsigned integers; the branch conditions
compare the value, so the output is independent of the static width of the
argument type. -/
def serializeUInt (host : Endian) (val : Nat) : List Nat :=
  if val ≤ POS_FIXINT_MAX then [val]
  else if val ≤ 255 then [UINT8, val]
  else if val ≤ 65535 then UINT16 :: writeWord host 2 val
  else if val ≤ 4294967295 then UINT32 :: writeWord host 4 val
  else UINT64 :: writeWord host 8 val

/-- `Packer::Serialize` for signed integers.  `mRef.put(val)` writes the
low 8 bits of the two's-complement representation, i.e. `val % 256`; the
multi-byte branches cast to the same-width unsigned type (`val % 2^w`)
before the endian conversion. -/
def serializeInt (host : Endian) (val : Int) : List Nat :=
  if val < 0 ∧ NEG_FIXINT_MIN ≤ val then [(val % 256).toNat]
  else if 0 ≤ val ∧ val ≤ 127 then [(val % 256).toNat]
  else if -128 ≤ val ∧ val ≤ 127 then [INT8, (val % 256).toNat]
  else if -32768 ≤ val ∧ val ≤ 32767 then
    INT16 :: writeWord host 2 (val % 65536).toNat
  else if -2147483648 ≤ val ∧ val ≤ 2147483647 then
    INT32 :: writeWord host 4 (val % 4294967296).toNat
  else INT64 :: writeWord host 8 (val % 18446744073709551616).toNat

/-- `Packer::Serialize` for `float`; `bits` is the IEEE-754 binary32 bit
pattern obtained by the `memcpy` into a `uint32_t`. -/
def serializeFloat32 (host : Endian) (bits : Nat) : List Nat :=
  FLOAT32 :: writeWord host 4 bits

/-- `Packer::Serialize` for `double`; `bits` is the IEEE-754 binary64 bit
pattern obtained by the `memcpy` into a `uint64_t`. -/
def serializeFloat64 (host : Endian) (bits : Nat) : List Nat :=
  FLOAT64 :: writeWord host 8 bits

/-- `Packer::Serialize` for string types (`val` is the byte view). -/
def serializeString (host : Endian) (val : List Nat) : Except Err (List Nat) :=
  if val.length > 4294967295 then .error .LengthOverflow
  else if val.length ≤ FIXSTR_MAX then
    .ok ((FIXSTR_MASK ||| val.length) :: val)
  else if val.length ≤ 255 then .ok (STR8 :: val.length :: val)
  else if val.length ≤ 65535 then
    .ok (STR16 :: writeWord host 2 val.length ++ val)
  else .ok (STR32 :: writeWord host 4 val.length ++ val)

/-- `Packer::Serialize` for array types.  For the 16- and 32-bit count
forms the source stores the converted count in a `uint64_t` temporary and
writes only the first 2 (resp. 4) bytes of its 8-byte memory image, which
is modelled verbatim here. -/
def serializeArray (host : Endian) (elemSer : α → List Nat) (arr : List α) :
    Except Err (List Nat) :=
  if arr.length ≤ 15 then
    .ok ((FIXARR_MASK ||| arr.length) :: (arr.map elemSer).flatten)
  else if arr.length ≤ 65535 then
    .ok (ARR16 :: (memBytes host 8 (ToBigEndian host 2 arr.length)).take 2
      ++ (arr.map elemSer).flatten)
  else if arr.length ≤ 4294967295 then
    .ok (ARR32 :: (memBytes host 8 (ToBigEndian host 4 arr.length)).take 4
      ++ (arr.map elemSer).flatten)
  else .error .LengthOverflow

/-! ### Unpacker (decoder)

Each `Unpacker::Deserialize` overload becomes one function from the prior
destination contents and the source bytes to a `DState`.  Template type
parameters are replaced by their `numeric_limits` data (`umax` for an
unsigned destination, `imin`/`imax` for a signed one).  A raw
`mRef.read((char *)&v, w)` into a zero-initialised `w`-byte word stores
the available bytes at the low addresses and leaves the rest zero; that
memory image is `bs.take w ++ replicate (w - (bs.take w).length) 0`. -/

/-- memory image left in a zero-initialised `w`-byte word by
`mRef.read((char *)&v, w)` when the stream holds `bs`. -/
def readMem (w : Nat) (bs : List Nat) : List Nat :=
  bs.take w ++ List.replicate (w - (bs.take w).length) 0

/-- `Unpacker::ReadMultiByteUint<T>` with `tmax = numeric_limits<T>::max()`
and `umax` the destination's max.  It receives the stream still holding
the (peeked) format byte and pops it itself; on the narrowing failure the
stream is untouched. -/
def readMultiByteUint (host : Endian) (w tmax umax : Nat) (bs : List Nat) :
    DState Nat :=
  if umax < tmax then ⟨some .NarrowingConversion, 0, bs⟩
  else
    match bs with
    | [] => ⟨none, 0, []⟩
    | _fmt :: rest =>
      ⟨none, ToLittleEndian host w (ofMem host (readMem w rest)), rest.drop w⟩

/-- two's-complement reinterpretation of the `w`-byte unsigned value `u`
as a signed value (the `(T)` cast at the end of `ReadMultiByteInt`). -/
def toSigned (w u : Nat) : Int :=
  if u < 2 ^ (8 * w - 1) then (u : Int) else (u : Int) - 2 ^ (8 * w)

/-- `Unpacker::ReadMultiByteInt<T>` with `tmin`/`tmax` the limits of `T`
and `imin`/`imax` the destination's limits. -/
def readMultiByteInt (host : Endian) (w : Nat) (tmin tmax imin imax : Int)
    (bs : List Nat) : DState Int :=
  if imax < tmax ∨ tmin < imin then ⟨some .NarrowingConversion, 0, bs⟩
  else
    match bs with
    | [] => ⟨none, 0, []⟩
    | _fmt :: rest =>
      ⟨none, toSigned w (ToLittleEndian host w (ofMem host (readMem w rest))),
        rest.drop w⟩

/-- `Unpacker::Deserialize` for `bool`.  The tag byte is consumed by
`mRef.get` before the switch, so it is gone even on `TypeMismatch`. -/
def deserializeBool (dest : Bool) (bs : List Nat) : DState Bool :=
  match bs with
  | [] => ⟨some .EndOfInput, dest, []⟩
  | t :: rest =>
    if t = BTRUE then ⟨none, true, rest⟩
    else if t = BFALSE then ⟨none, false, rest⟩
    else ⟨some .TypeMismatch, dest, rest⟩

/-- `Unpacker::Deserialize` for unsigned integer destinations with
`umax = numeric_limits<T>::max()`.  `out = 0` happens right after the EOF
check; the tag is only peeked, so on `TypeMismatch` (and on the narrowing
failure inside `ReadMultiByteUint`) it stays on the stream.  In the
`UINT8` case a `get` at end-of-stream leaves the zero-initialised `data`
unchanged. -/
def deserializeUInt (host : Endian) (umax : Nat) (dest : Nat) (bs : List Nat) :
    DState Nat :=
  match bs with
  | [] => ⟨some .EndOfInput, dest, []⟩
  | t :: rest =>
    if t = UINT8 then
      match rest with
      | [] => ⟨none, 0, []⟩
      | d :: rest2 => ⟨none, d, rest2⟩
    else if t = UINT16 then readMultiByteUint host 2 65535 umax (t :: rest)
    else if t = UINT32 then
      readMultiByteUint host 4 4294967295 umax (t :: rest)
    else if t = UINT64 then
      readMultiByteUint host 8 18446744073709551615 umax (t :: rest)
    else if t &&& POS_FIXINT_MASK = 0 then ⟨none, t, rest⟩
    else ⟨some .TypeMismatch, 0, t :: rest⟩

/-- `Unpacker::Deserialize` for signed integer destinations with
`imin`/`imax` the destination's limits.  The negative-fixint test
`(fmtOrData & NEG_FIXINT_MIN) == NEG_FIXINT_MIN` is, after the integer
promotions of the signed `char` operand, exactly `t &&& 0xE0 = 0xE0` on
the byte value `t`. -/
def deserializeInt (host : Endian) (imin imax : Int) (dest : Int)
    (bs : List Nat) : DState Int :=
  match bs with
  | [] => ⟨some .EndOfInput, dest, []⟩
  | t :: rest =>
    if t = INT8 then
      match rest with
      | [] => ⟨none, 0, []⟩
      | d :: rest2 => ⟨none, toSigned 1 d, rest2⟩
    else if t = INT16 then
      readMultiByteInt host 2 (-32768) 32767 imin imax (t :: rest)
    else if t = INT32 then
      readMultiByteInt host 4 (-2147483648) 2147483647 imin imax (t :: rest)
    else if t = INT64 then
      readMultiByteInt host 8 (-9223372036854775808) 9223372036854775807
        imin imax (t :: rest)
    else if t &&& 0xE0 = 0xE0 then ⟨none, toSigned 1 t, rest⟩
    else if t &&& POS_FIXINT_MASK = 0 then ⟨none, toSigned 1 t, rest⟩
    else ⟨some .TypeMismatch, 0, t :: rest⟩

/-- `Unpacker::Deserialize` for a `float` destination (`T = float`): the
tag is consumed by `mRef.get()` before the switch, so both the
`FLOAT64` narrowing failure (`max<float> < max<double>`) and the
`TypeMismatch` default leave the stream past the tag. -/
def deserializeFloatF (host : Endian) (dest : Nat) (bs : List Nat) :
    DState Nat :=
  match bs with
  | [] => ⟨some .EndOfInput, dest, []⟩
  | t :: rest =>
    if t = FLOAT32 then
      ⟨none, ToLittleEndian host 4 (ofMem host (readMem 4 rest)), rest.drop 4⟩
    else if t = FLOAT64 then ⟨some .NarrowingConversion, 0, rest⟩
    else ⟨some .TypeMismatch, 0, rest⟩

/-- `Unpacker::Deserialize` for a `double` destination (`T = double`).
In the `FLOAT32` case the source `memcpy`s only 4 bytes into the 8-byte
zeroed destination, so the resulting bit pattern is the value of the
8-byte word whose low-address half is the converted payload. -/
def deserializeFloatD (host : Endian) (dest : Nat) (bs : List Nat) :
    DState Nat :=
  match bs with
  | [] => ⟨some .EndOfInput, dest, []⟩
  | t :: rest =>
    if t = FLOAT32 then
      ⟨none,
        ofMem host
          (memBytes host 4 (ToLittleEndian host 4 (ofMem host (readMem 4 rest)))
            ++ [0, 0, 0, 0]),
        rest.drop 4⟩
    else if t = FLOAT64 then
      ⟨none, ToLittleEndian host 8 (ofMem host (readMem 8 rest)), rest.drop 8⟩
    else ⟨some .TypeMismatch, 0, rest⟩

/-- `std::string::resize(n)`: keep the first `min n (length)` characters
and value-initialise (NUL-fill) the rest. -/
def listResize (dflt : α) (n : Nat) (l : List α) : List α :=
  l.take n ++ List.replicate (n - l.length) dflt

/-- `mRef.read(out.data(), len)` into a buffer `dst`: the available
`src.take len` overwrite the front of `dst`, the remainder of `dst` is
untouched. -/
def readInto (dst src : List Nat) (len : Nat) : List Nat :=
  src.take len ++ dst.drop (src.take len).length

/-- `Unpacker::Deserialize` for `std::string`: the tag is consumed by
`mRef.get()`; `(fmt & FIXSTR_MASK) == FIXSTR_MASK` is, on the byte value,
`t &&& 0xA0 = 0xA0`.  In the `STR8` case a `get` at end-of-stream leaves
`fmt` (holding the tag) unchanged, hence `headD t`. -/
def deserializeString (host : Endian) (dest : List Nat) (bs : List Nat) :
    DState (List Nat) :=
  match bs with
  | [] => ⟨some .EndOfInput, dest, []⟩
  | t :: rest =>
    if t = STR8 then
      let len := rest.headD t
      let r2 := rest.drop 1
      ⟨none, readInto (listResize 0 len dest) r2 len ++ [0], r2.drop len⟩
    else if t = STR16 then
      let len := ToLittleEndian host 2 (ofMem host (readMem 2 rest))
      let r2 := rest.drop 2
      ⟨none, readInto (listResize 0 len dest) r2 len ++ [0], r2.drop len⟩
    else if t = STR32 then
      let len := ToLittleEndian host 4 (ofMem host (readMem 4 rest))
      let r2 := rest.drop 4
      ⟨none, readInto (listResize 0 len dest) r2 len ++ [0], r2.drop len⟩
    else if t &&& FIXSTR_MASK = FIXSTR_MASK then
      let len := t &&& FIXSTR_MAX
      ⟨none, readInto (listResize 0 len dest) rest len ++ [0], rest.drop len⟩
    else ⟨some .TypeMismatch, dest, rest⟩

/-- `Unpacker::Deserialize` for a fixed `char (&str)[N]` buffer (`dest` is
the buffer contents, of length `N`).  The tag is consumed by `mRef.get`;
on a capacity failure a single `unget` pushes back only the most recently
read byte. -/
def deserializeCharArray (host : Endian) (N : Nat) (dest : List Nat)
    (bs : List Nat) : DState (List Nat) :=
  match bs with
  | [] => ⟨some .EndOfInput, dest, []⟩
  | t :: rest =>
    if t = STR8 then
      let len := rest.headD t
      let r2 := rest.drop 1
      if N < len + 1 then ⟨some .CapacityTooSmall, dest, rest⟩
      else ⟨none, (readInto dest r2 len).set len 0, r2.drop len⟩
    else if t = STR16 then
      let len := ToLittleEndian host 2 (ofMem host (readMem 2 rest))
      let r2 := rest.drop 2
      if N < len + 1 then ⟨some .CapacityTooSmall, dest, rest.drop 1⟩
      else ⟨none, (readInto dest r2 len).set len 0, r2.drop len⟩
    else if t = STR32 then
      let len := ToLittleEndian host 4 (ofMem host (readMem 4 rest))
      let r2 := rest.drop 4
      if N < len + 1 then ⟨some .CapacityTooSmall, dest, rest.drop 3⟩
      else ⟨none, (readInto dest r2 len).set len 0, r2.drop len⟩
    else if t &&& FIXSTR_MASK = FIXSTR_MASK then
      let len := t &&& FIXSTR_MAX
      if N < len + 1 then ⟨some .CapacityTooSmall, dest, t :: rest⟩
      else ⟨none, (readInto dest rest len).set len 0, rest.drop len⟩
    else ⟨some .TypeMismatch, dest, rest⟩

/-- the element loop of `Unpacker::Deserialize(std::vector<T>&)`:
`for (i = 0; i < arrLen; i++) { out.resize(arrLen); Deserialize(out[i]); }`.
The resize happens INSIDE the loop body, so a zero count never resizes.
`fuel` is the number of iterations left (`arrLen - i`). -/
def vecLoop (elemDe : α → List Nat → DState α) (dflt : α) (n : Nat) :
    Nat → Nat → List α → List Nat → DState (List α)
  | 0, _, dest, bs => ⟨none, dest, bs⟩
  | fuel + 1, i, dest, bs =>
    let dest1 := listResize dflt n dest
    let r := elemDe (dest1.getD i dflt) bs
    let dest2 := dest1.set i r.dest
    match r.err with
    | some e => ⟨some e, dest2, r.rest⟩
    | none => vecLoop elemDe dflt n fuel (i + 1) dest2 r.rest

/-- `Unpacker::Deserialize(std::vector<T>&)`.  The tag is only peeked;
`PeekMultiBytesUint` reads the count bytes without consuming them (a peek
past the end yields `(Byte)EOF = 255`), then `mRef.ignore` skips them.
`(fmt & FIXARR_MASK) == FIXARR_MASK` is, on the byte value,
`t &&& 0x90 = 0x90`. -/
def deserializeVector (host : Endian) (elemDe : α → List Nat → DState α)
    (dflt : α) (dest : List α) (bs : List Nat) : DState (List α) :=
  match bs with
  | [] => ⟨some .EndOfInput, dest, []⟩
  | t :: rest =>
    if t = ARR16 then
      let peeked := rest.take 2 ++ List.replicate (2 - (rest.take 2).length) 255
      let arrLen := ToLittleEndian host 2 (ofMem host peeked)
      vecLoop elemDe dflt arrLen arrLen 0 dest (rest.drop 2)
    else if t = ARR32 then
      let peeked := rest.take 4 ++ List.replicate (4 - (rest.take 4).length) 255
      let arrLen := ToLittleEndian host 4 (ofMem host peeked)
      vecLoop elemDe dflt arrLen arrLen 0 dest (rest.drop 4)
    else if t &&& FIXARR_MASK = FIXARR_MASK then
      let arrLen := t &&& 0b1111
      vecLoop elemDe dflt arrLen arrLen 0 dest rest
    else ⟨some .TypeMismatch, dest, t :: rest⟩

/-! ### The family groups of §4.3

These predicates are the spec's family groups (the set of tags a
destination type accepts), written from the spec's table; they are used to
state the tag-mismatch claims. -/

abbrev inBoolFamily (t : Nat) : Prop := t = BFALSE ∨ t = BTRUE

abbrev inUIntFamily (t : Nat) : Prop :=
  t ≤ 127 ∨ t = UINT8 ∨ t = UINT16 ∨ t = UINT32 ∨ t = UINT64

abbrev inSIntFamily (t : Nat) : Prop :=
  t ≤ 127 ∨ (0xE0 ≤ t ∧ t ≤ 0xFF) ∨ t = INT8 ∨ t = INT16 ∨ t = INT32 ∨
    t = INT64

abbrev inFloatFamily (t : Nat) : Prop := t = FLOAT32 ∨ t = FLOAT64

abbrev inStrFamily (t : Nat) : Prop :=
  (0xA0 ≤ t ∧ t ≤ 0xBF) ∨ t = STR8 ∨ t = STR16 ∨ t = STR32

abbrev inArrFamily (t : Nat) : Prop :=
  (0x90 ≤ t ∧ t ≤ 0x9F) ∨ t = ARR16 ∨ t = ARR32

/-! ### Bit-mask facts

The decoders test tags with `&`-masks; on byte values these tests are
equivalent to the following range conditions. -/

set_option maxRecDepth 8000

theorem land_pos_fixint {t : Nat} (ht : t < 256) :
    (t &&& POS_FIXINT_MASK = 0) ↔ t < 128 := by
  revert t
  decide

theorem land_neg_fixint {t : Nat} (ht : t < 256) :
    (t &&& 0xE0 = 0xE0) ↔ 0xE0 ≤ t := by
  revert t
  decide

theorem land_fixstr {t : Nat} (ht : t < 256) :
    (t &&& FIXSTR_MASK = FIXSTR_MASK) ↔
      (0xA0 ≤ t ∧ t ≤ 0xBF) ∨ 0xE0 ≤ t := by
  revert t
  decide

theorem land_fixarr {t : Nat} (ht : t < 256) :
    (t &&& FIXARR_MASK = FIXARR_MASK) ↔
      (0x90 ≤ t ∧ t ≤ 0x9F) ∨ (0xB0 ≤ t ∧ t ≤ 0xBF) ∨
      (0xD0 ≤ t ∧ t ≤ 0xDF) ∨ 0xF0 ≤ t := by
  revert t
  decide

theorem lor_fixstr_tag {L : Nat} (hL : L ≤ 31) :
    FIXSTR_MASK ||| L = 0xA0 + L := by
  revert L
  decide

theorem land_fixstr_len {L : Nat} (hL : L ≤ 31) :
    (0xA0 + L) &&& FIXSTR_MAX = L := by
  revert L
  decide

theorem lor_fixarr_tag {L : Nat} (hL : L ≤ 15) :
    FIXARR_MASK ||| L = 0x90 + L := by
  revert L
  decide

theorem land_fixarr_len {L : Nat} (hL : L ≤ 15) :
    (0x90 + L) &&& 0b1111 = L := by
  revert L
  decide

/-! ### Claims about the endian routines (C5, C9) -/

/-- Claim C5 (counterexample): the claim says that on a little-endian
host `to_little_endian` is the identity; in the source `ToLittleEndian`
branches exactly like `ToBigEndian` and byte-reverses on a little-endian
host, so on the 16-bit value 256 it returns 1. -/
theorem C5_counterexample : ToLittleEndian Endian.little 2 256 ≠ 256 := by
  decide

/-- Claim C5 (amended): on a little-endian host BOTH `ToBigEndian` and
`ToLittleEndian` byte-reverse their argument, and on a big-endian host
both are the identity (the two function bodies are identical; the
little-endian `ToLittleEndian` branch swaps instead of being the
identity). -/
theorem C5_theorem (w v : Nat) :
    ToBigEndian Endian.little w v = Byteswap w v ∧
    ToLittleEndian Endian.little w v = Byteswap w v ∧
    ToBigEndian Endian.big w v = v ∧
    ToLittleEndian Endian.big w v = v :=
  ⟨rfl, rfl, rfl, rfl⟩

/-- Claim C9: on either host `ToBigEndian` and `ToLittleEndian` compute
the same function, and therefore `ToLittleEndian` applied to the wire
value produced by `ToBigEndian` recovers the original in-range value. -/
theorem C9_theorem (host : Endian) (w v : Nat) :
    ToBigEndian host w v = ToLittleEndian host w v ∧
    (v < 2 ^ (8 * w) → ToLittleEndian host w (ToBigEndian host w v) = v) := by
  cases host with
  | little => exact ⟨rfl, fun h => byteswap_byteswap h⟩
  | big => exact ⟨rfl, fun _ => rfl⟩

/-- Claim C9 (witness): concrete instance at width 2, value 0x1234. -/
theorem C9_witness :
    ToLittleEndian Endian.little 2 (ToBigEndian Endian.little 2 4660) = 4660 :=
  (C9_theorem Endian.little 2 4660).2 (by decide)

/-! ### Claims about the encoder (C4, C6) -/

/-- Claim C4: the unsigned encoder picks the narrowest family containing
the value — one positive-fixint byte for 0..127, `0xcc` + 1 byte for
128..255, `0xcd` + 2 big-endian bytes up to 65535, `0xce` + 4 bytes up to
2^32-1, `0xcf` + 8 bytes otherwise.  The model's branches compare the
value only (as the source does), so the output is independent of the
static argument width. -/
theorem C4_theorem (host : Endian) (v : Nat) (hv : v < 2 ^ 64) :
    (v ≤ 127 → serializeUInt host v = [v]) ∧
    (128 ≤ v → v ≤ 255 → serializeUInt host v = [UINT8, v]) ∧
    (256 ≤ v → v ≤ 65535 → serializeUInt host v = UINT16 :: beBytes 2 v) ∧
    (65536 ≤ v → v ≤ 4294967295 →
      serializeUInt host v = UINT32 :: beBytes 4 v) ∧
    (4294967296 ≤ v → serializeUInt host v = UINT64 :: beBytes 8 v) := by
  simp only [serializeUInt, POS_FIXINT_MAX, writeWord_eq]
  refine ⟨?_, ?_, ?_, ?_, ?_⟩ <;> intros <;> split_ifs <;>
    first
    | rfl
    | omega

/-- Claim C4 (witness): the value 200 (in a source of any width) is
encoded as the uint8 form `cc c8`. -/
theorem C4_witness : serializeUInt Endian.little 200 = [UINT8, 200] :=
  ((C4_theorem Endian.little 200 (by decide)).2.1 (by decide) (by decide))

/-- Claim C6: every signed value in -32..127 is encoded as exactly one
byte — for negative values the two's-complement byte of the value itself
(which lies in 0xE0..0xFF, i.e. its top three bits are 111), for
non-negative values the byte of the value — never the int8 form. -/
theorem C6_theorem (host : Endian) (v : Int) (h1 : -32 ≤ v) (h2 : v ≤ 127) :
    serializeInt host v = [(v % 256).toNat] ∧
    (v < 0 → 0xE0 ≤ (v % 256).toNat ∧ (v % 256).toNat ≤ 0xFF) ∧
    (0 ≤ v → ((v % 256).toNat : Int) = v) := by
  unfold serializeInt NEG_FIXINT_MIN
  split_ifs with hc1 hc2 <;>
    refine ⟨?_, fun hneg => ?_, fun hpos => ?_⟩ <;>
    first
    | rfl
    | omega

/-- Claim C6 (witness): -32 encodes as the single negative-fixint byte
`e0` and 127 as the single positive-fixint byte `7f`. -/
theorem C6_witness :
    serializeInt Endian.little (-32) = [0xE0] ∧
    serializeInt Endian.little 127 = [127] := by
  constructor
  · have h := (C6_theorem Endian.little (-32) (by decide) (by decide)).1
    simpa using h
  · have h := (C6_theorem Endian.little 127 (by decide) (by decide)).1
    simpa using h

/-! ### Claim C10: failed numeric decodes zero the destination -/

theorem deserializeUInt_fail_dest (host : Endian) (umax d : Nat)
    (bs : List Nat) (e : Err) (he : e ≠ Err.EndOfInput)
    (h : (deserializeUInt host umax d bs).err = some e) :
    (deserializeUInt host umax d bs).dest = 0 := by
  cases bs with
  | nil =>
    simp only [deserializeUInt] at h
    exact absurd (Option.some.inj h).symm he
  | cons t rest =>
    simp only [deserializeUInt, readMultiByteUint] at h ⊢
    split_ifs at h ⊢ <;> first
      | rfl
      | (cases rest <;> simp_all)
      | simp_all

theorem deserializeInt_fail_dest (host : Endian) (imin imax : Int) (d : Int)
    (bs : List Nat) (e : Err) (he : e ≠ Err.EndOfInput)
    (h : (deserializeInt host imin imax d bs).err = some e) :
    (deserializeInt host imin imax d bs).dest = 0 := by
  cases bs with
  | nil =>
    simp only [deserializeInt] at h
    exact absurd (Option.some.inj h).symm he
  | cons t rest =>
    simp only [deserializeInt, readMultiByteInt] at h ⊢
    split_ifs at h ⊢ <;> first
      | rfl
      | (cases rest <;> simp_all)
      | simp_all

theorem deserializeFloatF_fail_dest (host : Endian) (d : Nat)
    (bs : List Nat) (e : Err) (he : e ≠ Err.EndOfInput)
    (h : (deserializeFloatF host d bs).err = some e) :
    (deserializeFloatF host d bs).dest = 0 := by
  cases bs with
  | nil =>
    simp only [deserializeFloatF] at h
    exact absurd (Option.some.inj h).symm he
  | cons t rest =>
    simp only [deserializeFloatF] at h ⊢
    split_ifs at h ⊢ <;> simp_all

theorem deserializeFloatD_fail_dest (host : Endian) (d : Nat)
    (bs : List Nat) (e : Err) (he : e ≠ Err.EndOfInput)
    (h : (deserializeFloatD host d bs).err = some e) :
    (deserializeFloatD host d bs).dest = 0 := by
  cases bs with
  | nil =>
    simp only [deserializeFloatD] at h
    exact absurd (Option.some.inj h).symm he
  | cons t rest =>
    simp only [deserializeFloatD] at h ⊢
    split_ifs at h ⊢ <;> simp_all

/-- Claim C10: for unsigned, signed and floating destinations, any decode
failure raised after the EOF check (`TypeMismatch` or
`NarrowingConversion`) leaves the destination equal to 0 rather than its
prior value, because `out = 0` runs before the tag is examined. -/
theorem C10_theorem (host : Endian) (umax : Nat) (imin imax : Int)
    (d1 : Nat) (d2 : Int) (d3 d4 : Nat) (bs : List Nat) (e : Err)
    (he : e ≠ Err.EndOfInput) :
    ((deserializeUInt host umax d1 bs).err = some e →
      (deserializeUInt host umax d1 bs).dest = 0) ∧
    ((deserializeInt host imin imax d2 bs).err = some e →
      (deserializeInt host imin imax d2 bs).dest = 0) ∧
    ((deserializeFloatF host d3 bs).err = some e →
      (deserializeFloatF host d3 bs).dest = 0) ∧
    ((deserializeFloatD host d4 bs).err = some e →
      (deserializeFloatD host d4 bs).dest = 0) :=
  ⟨deserializeUInt_fail_dest host umax d1 bs e he,
   deserializeInt_fail_dest host imin imax d2 bs e he,
   deserializeFloatF_fail_dest host d3 bs e he,
   deserializeFloatD_fail_dest host d4 bs e he⟩

/-- Claim C10 (witness): decoding tag `c0` into an unsigned destination
that previously held 7 fails with `TypeMismatch` and leaves it 0. -/
theorem C10_witness :
    (deserializeUInt Endian.little 255 7 [0xc0]).dest = 0 :=
  (C10_theorem Endian.little 255 (-128) 127 7 7 7 7 [0xc0]
    Err.TypeMismatch (by decide)).1 (by decide)

/-! ### Claim C2: tag outside the destination's family group -/

/-- Claim C2 (counterexample): the claim says a mismatching tag is left in
place for multi-byte-form destinations.  Decoding a `float` destination
from the uint8 form `cc 05` raises `TypeMismatch` with the tag already
consumed; moreover a string destination does not raise `TypeMismatch` at
all on byte `e5` (a negative-fixint tag, outside the string family), nor
does an array destination on byte `d0` (the int8 tag). -/
theorem C2_counterexample :
    (deserializeFloatF Endian.little 0 [0xcc, 5]).rest ≠ [0xcc, 5] ∧
    (deserializeString Endian.little [] [0xE5, 1, 2, 3, 4, 5]).err ≠
      some Err.TypeMismatch ∧
    (deserializeVector Endian.little (deserializeUInt Endian.little 255) 0 []
      [0xd0]).err ≠ some Err.TypeMismatch := by
  refine ⟨by decide, by decide, by decide⟩

/-- Claim C2 (amended): when the peeked tag `t` is outside the family
group of the destination type, the decode fails with `TypeMismatch`, with
the following corrections forced by the source: the tag is left in place
only for unsigned-integer, signed-integer and array destinations (whose
deserializers only peek); for bool, float and string destinations the tag
has already been consumed when `TypeMismatch` is raised; a string
destination does not fail at all on tags `e0`..`ff` (the fixstr mask test
accepts them), and an array destination does not fail on tags with both
mask bits `0x90` set (`b0`..`bf`, `d0`..`df`, `f0`..`ff`). -/
theorem C2_theorem (host : Endian) (t : Nat) (ht : t < 256)
    (rest : List Nat) (umax N : Nat) (imin imax : Int) (db : Bool)
    (du : Nat) (di : Int) (df dd : Nat) (ds dc : List Nat) {α : Type}
    (elemDe : α → List Nat → DState α) (dflt : α) (dv : List α) :
    (¬ inBoolFamily t →
      deserializeBool db (t :: rest) = ⟨some .TypeMismatch, db, rest⟩) ∧
    (¬ inUIntFamily t →
      deserializeUInt host umax du (t :: rest) =
        ⟨some .TypeMismatch, 0, t :: rest⟩) ∧
    (¬ inSIntFamily t →
      deserializeInt host imin imax di (t :: rest) =
        ⟨some .TypeMismatch, 0, t :: rest⟩) ∧
    (¬ inFloatFamily t →
      deserializeFloatF host df (t :: rest) = ⟨some .TypeMismatch, 0, rest⟩) ∧
    (¬ inFloatFamily t →
      deserializeFloatD host dd (t :: rest) = ⟨some .TypeMismatch, 0, rest⟩) ∧
    (¬ inStrFamily t → t < 0xE0 →
      deserializeString host ds (t :: rest) =
        ⟨some .TypeMismatch, ds, rest⟩) ∧
    (¬ inStrFamily t → t < 0xE0 →
      deserializeCharArray host N dc (t :: rest) =
        ⟨some .TypeMismatch, dc, rest⟩) ∧
    (0xE0 ≤ t → (deserializeString host ds (t :: rest)).err = none) ∧
    (¬ inArrFamily t →
      ¬ ((0xB0 ≤ t ∧ t ≤ 0xBF) ∨ (0xD0 ≤ t ∧ t ≤ 0xDF) ∨ 0xF0 ≤ t) →
      deserializeVector host elemDe dflt dv (t :: rest) =
        ⟨some .TypeMismatch, dv, t :: rest⟩) := by
  refine ⟨?_, ?_, ?_, ?_, ?_, ?_, ?_, ?_, ?_⟩
  · intro hG
    simp only [inBoolFamily, BFALSE, BTRUE] at hG
    simp only [deserializeBool]
    rw [if_neg (by simp only [BTRUE]; omega),
      if_neg (by simp only [BFALSE]; omega)]
  · intro hG
    simp only [inUIntFamily, UINT8, UINT16, UINT32, UINT64] at hG
    simp only [deserializeUInt]
    rw [if_neg (by simp only [UINT8]; omega),
      if_neg (by simp only [UINT16]; omega),
      if_neg (by simp only [UINT32]; omega),
      if_neg (by simp only [UINT64]; omega),
      if_neg (by rw [land_pos_fixint ht]; omega)]
  · intro hG
    simp only [inSIntFamily, INT8, INT16, INT32, INT64] at hG
    simp only [deserializeInt]
    rw [if_neg (by simp only [INT8]; omega),
      if_neg (by simp only [INT16]; omega),
      if_neg (by simp only [INT32]; omega),
      if_neg (by simp only [INT64]; omega),
      if_neg (by rw [land_neg_fixint ht]; omega),
      if_neg (by rw [land_pos_fixint ht]; omega)]
  · intro hG
    simp only [inFloatFamily, FLOAT32, FLOAT64] at hG
    simp only [deserializeFloatF]
    rw [if_neg (by simp only [FLOAT32]; omega),
      if_neg (by simp only [FLOAT64]; omega)]
  · intro hG
    simp only [inFloatFamily, FLOAT32, FLOAT64] at hG
    simp only [deserializeFloatD]
    rw [if_neg (by simp only [FLOAT32]; omega),
      if_neg (by simp only [FLOAT64]; omega)]
  · intro hG hE
    simp only [inStrFamily, STR8, STR16, STR32] at hG
    simp only [deserializeString]
    rw [if_neg (by simp only [STR8]; omega),
      if_neg (by simp only [STR16]; omega),
      if_neg (by simp only [STR32]; omega),
      if_neg (by rw [land_fixstr ht]; omega)]
  · intro hG hE
    simp only [inStrFamily, STR8, STR16, STR32] at hG
    simp only [deserializeCharArray]
    rw [if_neg (by simp only [STR8]; omega),
      if_neg (by simp only [STR16]; omega),
      if_neg (by simp only [STR32]; omega),
      if_neg (by rw [land_fixstr ht]; omega)]
  · intro hE
    simp only [deserializeString]
    rw [if_neg (by simp only [STR8]; omega),
      if_neg (by simp only [STR16]; omega),
      if_neg (by simp only [STR32]; omega),
      if_pos (by rw [land_fixstr ht]; omega)]
  · intro hG hM
    simp only [inArrFamily, ARR16, ARR32] at hG
    simp only [deserializeVector]
    rw [if_neg (by simp only [ARR16]; omega),
      if_neg (by simp only [ARR32]; omega),
      if_neg (by rw [land_fixarr ht]; omega)]

/-- Claim C2 (witness): tag `c0` (nil, outside every family) against an
unsigned destination fails `TypeMismatch` and stays on the source. -/
theorem C2_witness :
    deserializeUInt Endian.little 255 7 [0xc0, 9] =
      ⟨some Err.TypeMismatch, 0, [0xc0, 9]⟩ :=
  (C2_theorem Endian.little 0xc0 (by decide) [9] 255 4 (-128) 127 false 7 7
    7 7 [] [] (fun (a : Nat) (l : List Nat) => ⟨none, a, l⟩) 0 []).2.1
    (by decide)

/-! ### Claim C3: narrowing-conversion failures -/

/-- Claim C3 (counterexample): the claim says the tag byte is back on the
source whenever `NarrowingConversion` is raised.  Decoding a float64
encoding into a `float` destination does fail `NarrowingConversion`, but
the tag `cb` has already been consumed by `mRef.get()`. -/
theorem C3_counterexample :
    (deserializeFloatF Endian.little 0
      [0xcb, 64, 9, 33, 251, 84, 68, 45, 24]).err =
        some Err.NarrowingConversion ∧
    (deserializeFloatF Endian.little 0
      [0xcb, 64, 9, 33, 251, 84, 68, 45, 24]).rest ≠
        [0xcb, 64, 9, 33, 251, 84, 68, 45, 24] := by
  refine ⟨by decide, by decide⟩

/-- Claim C3 (amended): when the peeked tag is in the destination's
family but the destination's representable range is strictly narrower
than the family's maximum (for signed families, than its minimum/maximum),
the decode fails with `NarrowingConversion` regardless of the actual
payload value.  For integer destinations the tag byte is still on the
source when the failure is raised (the tag was only peeked); for a
`float` destination decoding a float64 encoding the failure is raised
with the tag already consumed. -/
theorem C3_theorem (host : Endian) (umax : Nat) (imin imax : Int)
    (du : Nat) (di : Int) (df : Nat) (rest : List Nat) :
    (umax < 65535 →
      deserializeUInt host umax du (UINT16 :: rest) =
        ⟨some .NarrowingConversion, 0, UINT16 :: rest⟩) ∧
    (umax < 4294967295 →
      deserializeUInt host umax du (UINT32 :: rest) =
        ⟨some .NarrowingConversion, 0, UINT32 :: rest⟩) ∧
    (umax < 18446744073709551615 →
      deserializeUInt host umax du (UINT64 :: rest) =
        ⟨some .NarrowingConversion, 0, UINT64 :: rest⟩) ∧
    (imax < 32767 ∨ -32768 < imin →
      deserializeInt host imin imax di (INT16 :: rest) =
        ⟨some .NarrowingConversion, 0, INT16 :: rest⟩) ∧
    (imax < 2147483647 ∨ -2147483648 < imin →
      deserializeInt host imin imax di (INT32 :: rest) =
        ⟨some .NarrowingConversion, 0, INT32 :: rest⟩) ∧
    (imax < 9223372036854775807 ∨ -9223372036854775808 < imin →
      deserializeInt host imin imax di (INT64 :: rest) =
        ⟨some .NarrowingConversion, 0, INT64 :: rest⟩) ∧
    (deserializeFloatF host df (FLOAT64 :: rest) =
      ⟨some .NarrowingConversion, 0, rest⟩) := by
  refine ⟨?_, ?_, ?_, ?_, ?_, ?_, ?_⟩
  · intro h
    simp only [deserializeUInt, readMultiByteUint]
    rw [if_neg (by decide), if_pos trivial, if_pos h]
  · intro h
    simp only [deserializeUInt, readMultiByteUint]
    rw [if_neg (by decide), if_neg (by decide), if_pos trivial, if_pos h]
  · intro h
    simp only [deserializeUInt, readMultiByteUint]
    rw [if_neg (by decide), if_neg (by decide), if_neg (by decide),
      if_pos trivial, if_pos h]
  · intro h
    simp only [deserializeInt, readMultiByteInt]
    rw [if_neg (by decide), if_pos trivial, if_pos (by omega)]
  · intro h
    simp only [deserializeInt, readMultiByteInt]
    rw [if_neg (by decide), if_neg (by decide), if_pos trivial,
      if_pos (by omega)]
  · intro h
    simp only [deserializeInt, readMultiByteInt]
    rw [if_neg (by decide), if_neg (by decide), if_neg (by decide),
      if_pos trivial, if_pos (by omega)]
  · simp only [deserializeFloatF]
    rw [if_neg (by decide), if_pos trivial]

/-- Claim C3 (witness): the spec's own example — decoding `cd 01 00` into
a `uint8` destination fails `NarrowingConversion` with the tag still on
the source. -/
theorem C3_witness :
    deserializeUInt Endian.little 255 7 [0xcd, 1, 0] =
      ⟨some Err.NarrowingConversion, 0, [0xcd, 1, 0]⟩ :=
  (C3_theorem Endian.little 255 (-128) 127 7 7 7 [1, 0]).1 (by decide)

/-! ### Claim C7: string decodes append one NUL -/

theorem length_listResize (dflt : α) (n : Nat) (l : List α) :
    (listResize dflt n l).length = n := by
  simp only [listResize, List.length_append, List.length_take,
    List.length_replicate]
  omega

theorem readMem_full (w : Nat) (l rest : List Nat) (hl : l.length = w) :
    readMem w (l ++ rest) = l := by
  unfold readMem
  rw [List.take_left' hl, hl]
  simp

theorem readWord_def (host : Endian) (w : Nat) (l : List Nat) :
    ToLittleEndian host w (ofMem host l) = readWord host w l := rfl

theorem readInto_full (dest p extra : List Nat) :
    readInto (listResize 0 p.length dest) (p ++ extra) p.length = p := by
  unfold readInto
  rw [List.take_left]
  have hl : (listResize 0 p.length dest).length ≤ p.length :=
    le_of_eq (length_listResize 0 p.length dest)
  rw [List.drop_eq_nil_of_le hl, List.append_nil]

theorem strDecode_fixstr (host : Endian) (dest p extra : List Nat)
    (hL : p.length ≤ 31) :
    deserializeString host dest ((0xA0 + p.length) :: (p ++ extra)) =
      ⟨none, p ++ [0], extra⟩ := by
  have ht : 0xA0 + p.length < 256 := by omega
  simp only [deserializeString]
  rw [if_neg (by simp only [STR8]; omega),
    if_neg (by simp only [STR16]; omega),
    if_neg (by simp only [STR32]; omega),
    if_pos (by rw [land_fixstr ht]; omega)]
  rw [show (0xA0 + p.length) &&& FIXSTR_MAX = p.length from land_fixstr_len hL]
  rw [readInto_full, List.drop_left]

theorem strDecode_str8 (host : Endian) (dest p extra : List Nat)
    (hL : p.length ≤ 255) :
    deserializeString host dest (STR8 :: p.length :: (p ++ extra)) =
      ⟨none, p ++ [0], extra⟩ := by
  simp only [deserializeString]
  rw [if_pos trivial]
  simp only [List.headD_cons, List.drop_succ_cons, List.drop_zero]
  rw [readInto_full, List.drop_left]

theorem strDecode_str16 (host : Endian) (dest p extra : List Nat)
    (hL : p.length ≤ 65535) :
    deserializeString host dest
      (STR16 :: (beBytes 2 p.length ++ (p ++ extra))) =
        ⟨none, p ++ [0], extra⟩ := by
  simp only [deserializeString]
  rw [if_neg (by decide), if_pos trivial]
  rw [readMem_full 2 _ _ (length_beBytes 2 p.length), readWord_def,
    readWord_beBytes host (by
      have : (2 : Nat) ^ (8 * 2) = 65536 := by norm_num
      omega),
    List.drop_left' (length_beBytes 2 p.length)]
  rw [readInto_full, List.drop_left]

theorem strDecode_str32 (host : Endian) (dest p extra : List Nat)
    (hL : p.length ≤ 4294967295) :
    deserializeString host dest
      (STR32 :: (beBytes 4 p.length ++ (p ++ extra))) =
        ⟨none, p ++ [0], extra⟩ := by
  simp only [deserializeString]
  rw [if_neg (by decide), if_neg (by decide), if_pos trivial]
  rw [readMem_full 4 _ _ (length_beBytes 4 p.length), readWord_def,
    readWord_beBytes host (by
      have : (2 : Nat) ^ (8 * 4) = 4294967296 := by norm_num
      omega),
    List.drop_left' (length_beBytes 4 p.length)]
  rw [readInto_full, List.drop_left]

/-- Claim C7: every successful decode of a string encoding with payload
length `L` into a growable string destination leaves the destination
holding exactly `L + 1` bytes: the `L` payload bytes followed by one NUL,
for each of the four string forms. -/
theorem C7_theorem (host : Endian) (dest p extra : List Nat) :
    (p.length ≤ 31 →
      deserializeString host dest ((0xA0 + p.length) :: (p ++ extra)) =
        ⟨none, p ++ [0], extra⟩) ∧
    (p.length ≤ 255 →
      deserializeString host dest (STR8 :: p.length :: (p ++ extra)) =
        ⟨none, p ++ [0], extra⟩) ∧
    (p.length ≤ 65535 →
      deserializeString host dest
        (STR16 :: (beBytes 2 p.length ++ (p ++ extra))) =
          ⟨none, p ++ [0], extra⟩) ∧
    (p.length ≤ 4294967295 →
      deserializeString host dest
        (STR32 :: (beBytes 4 p.length ++ (p ++ extra))) =
          ⟨none, p ++ [0], extra⟩) ∧
    (p ++ [0]).length = p.length + 1 :=
  ⟨strDecode_fixstr host dest p extra, strDecode_str8 host dest p extra,
   strDecode_str16 host dest p extra, strDecode_str32 host dest p extra,
   by simp⟩

/-- Claim C7 (witness): decoding the fixstr encoding of "abc" into a
string that previously held five bytes yields the three payload bytes
plus one NUL. -/
theorem C7_witness :
    deserializeString Endian.little [7, 7, 7, 7, 7] [0xa3, 97, 98, 99, 42] =
      ⟨none, [97, 98, 99, 0], [42]⟩ := by
  have h := (C7_theorem Endian.little [7, 7, 7, 7, 7] [97, 98, 99] [42]).1
    (by decide)
  simpa using h

/-! ### Claim C8: growable-array decode and the in-loop resize -/

theorem vecLoop_dest_length {α : Type} (elemDe : α → List Nat → DState α)
    (dflt : α) (n : Nat) :
    ∀ fuel i dest bs,
      ((vecLoop elemDe dflt n (fuel + 1) i dest bs).dest).length = n := by
  intro fuel
  induction fuel with
  | zero =>
    intro i dest bs
    simp only [vecLoop]
    split <;> simp [vecLoop, List.length_set, length_listResize]
  | succ k ih =>
    intro i dest bs
    simp only [vecLoop]
    split
    · simp [List.length_set, length_listResize]
    · exact ih _ _ _

theorem deserializeVector_fixarr {α : Type} (host : Endian)
    (elemDe : α → List Nat → DState α) (dflt : α) (dest : List α)
    (c : Nat) (rest : List Nat) (hc : c ≤ 15) :
    deserializeVector host elemDe dflt dest ((0x90 + c) :: rest) =
      vecLoop elemDe dflt c c 0 dest rest := by
  simp only [deserializeVector]
  rw [if_neg (by simp only [ARR16]; omega),
    if_neg (by simp only [ARR32]; omega),
    if_pos (by rw [land_fixarr (by omega)]; omega),
    show (0x90 + c) &&& 0b1111 = c from land_fixarr_len hc]

theorem deserializeVector_arr16 {α : Type} (host : Endian)
    (elemDe : α → List Nat → DState α) (dflt : α) (dest : List α)
    (c : Nat) (rest : List Nat) (hc : c ≤ 65535) :
    deserializeVector host elemDe dflt dest
      (ARR16 :: (beBytes 2 c ++ rest)) =
        vecLoop elemDe dflt c c 0 dest rest := by
  simp only [deserializeVector]
  rw [if_pos trivial, List.take_left' (length_beBytes 2 c),
    length_beBytes 2 c]
  simp only [Nat.sub_self, List.replicate_zero, List.append_nil]
  rw [readWord_def, readWord_beBytes host (by
      have : (2 : Nat) ^ (8 * 2) = 65536 := by norm_num
      omega),
    List.drop_left' (length_beBytes 2 c)]

theorem deserializeVector_arr32 {α : Type} (host : Endian)
    (elemDe : α → List Nat → DState α) (dflt : α) (dest : List α)
    (c : Nat) (rest : List Nat) (hc : c ≤ 4294967295) :
    deserializeVector host elemDe dflt dest
      (ARR32 :: (beBytes 4 c ++ rest)) =
        vecLoop elemDe dflt c c 0 dest rest := by
  simp only [deserializeVector]
  rw [if_neg (by decide), if_pos trivial, List.take_left' (length_beBytes 4 c),
    length_beBytes 4 c]
  simp only [Nat.sub_self, List.replicate_zero, List.append_nil]
  rw [readWord_def, readWord_beBytes host (by
      have : (2 : Nat) ^ (8 * 4) = 4294967296 := by norm_num
      omega),
    List.drop_left' (length_beBytes 4 c)]

/-- Claim C8 (counterexample): the claim says a successful array decode
with element count 0 resizes the destination to 0 elements; decoding the
empty fixarray `90` into a vector that previously held one element
succeeds but leaves the old element in place, because the resize happens
inside the per-element loop, which runs zero times. -/
theorem C8_counterexample :
    (deserializeVector Endian.little (deserializeUInt Endian.little 255) 0
      [7] [0x90, 42]).err = none ∧
    (deserializeVector Endian.little (deserializeUInt Endian.little 255) 0
      [7] [0x90, 42]).dest = [7] ∧
    ((deserializeVector Endian.little (deserializeUInt Endian.little 255) 0
      [7] [0x90, 42]).dest).length ≠ 0 := by
  refine ⟨by decide, by decide, by decide⟩

/-- Claim C8 (amended): decoding an array encoding with element count `c`
into a growable sequence leaves the destination holding exactly `c`
elements when `c ≥ 1`, including when it previously held more; but for
`c = 0` the destination is left entirely unchanged (the source resizes
only inside the per-element loop), shown here for the empty fixarray and
the empty array16 form. -/
theorem C8_theorem {α : Type} (host : Endian)
    (elemDe : α → List Nat → DState α) (dflt : α) (dest : List α)
    (c : Nat) (rest : List Nat) :
    (deserializeVector host elemDe dflt dest (0x90 :: rest) =
      ⟨none, dest, rest⟩) ∧
    (deserializeVector host elemDe dflt dest
      (ARR16 :: (beBytes 2 0 ++ rest)) = ⟨none, dest, rest⟩) ∧
    (1 ≤ c → c ≤ 15 →
      ((deserializeVector host elemDe dflt dest
        ((0x90 + c) :: rest)).dest).length = c) ∧
    (1 ≤ c → c ≤ 65535 →
      ((deserializeVector host elemDe dflt dest
        (ARR16 :: (beBytes 2 c ++ rest))).dest).length = c) ∧
    (1 ≤ c → c ≤ 4294967295 →
      ((deserializeVector host elemDe dflt dest
        (ARR32 :: (beBytes 4 c ++ rest))).dest).length = c) := by
  refine ⟨?_, ?_, ?_, ?_, ?_⟩
  · have h := deserializeVector_fixarr host elemDe dflt dest 0 rest
      (by omega)
    simpa [vecLoop] using h
  · rw [deserializeVector_arr16 host elemDe dflt dest 0 rest (by omega)]
    simp [vecLoop]
  · intro h1 h15
    obtain ⟨k, rfl⟩ : ∃ k, c = k + 1 := ⟨c - 1, by omega⟩
    rw [deserializeVector_fixarr host elemDe dflt dest (k + 1) rest
      (by omega)]
    exact vecLoop_dest_length elemDe dflt (k + 1) k 0 dest rest
  · intro h1 h16
    obtain ⟨k, rfl⟩ : ∃ k, c = k + 1 := ⟨c - 1, by omega⟩
    rw [deserializeVector_arr16 host elemDe dflt dest (k + 1) rest
      (by omega)]
    exact vecLoop_dest_length elemDe dflt (k + 1) k 0 dest rest
  · intro h1 h32
    obtain ⟨k, rfl⟩ : ∃ k, c = k + 1 := ⟨c - 1, by omega⟩
    rw [deserializeVector_arr32 host elemDe dflt dest (k + 1) rest
      (by omega)]
    exact vecLoop_dest_length elemDe dflt (k + 1) k 0 dest rest

/-- Claim C8 (witness): decoding a 2-element fixarray into a vector that
previously held three elements leaves exactly 2 elements. -/
theorem C8_witness :
    ((deserializeVector Endian.little (deserializeUInt Endian.little 255) 0
      ([99, 99, 99] : List Nat) [0x92, 5, 6]).dest).length = 2 :=
  (C8_theorem Endian.little (deserializeUInt Endian.little 255) 0
    [99, 99, 99] 2 [5, 6]).2.2.1 (by decide) (by decide)

/-! ### Round-trip helpers (for C1) -/

theorem bool_roundtrip (b db : Bool) (extra : List Nat) :
    deserializeBool db (serializeBool b ++ extra) = ⟨none, b, extra⟩ := by
  cases b <;> simp [serializeBool, deserializeBool, BTRUE, BFALSE]

theorem deserializeUInt_posfix (host : Endian) (umax du b : Nat)
    (extra : List Nat) (hb : b ≤ 127) :
    deserializeUInt host umax du (b :: extra) = ⟨none, b, extra⟩ := by
  simp only [deserializeUInt]
  rw [if_neg (by simp only [UINT8]; omega),
    if_neg (by simp only [UINT16]; omega),
    if_neg (by simp only [UINT32]; omega),
    if_neg (by simp only [UINT64]; omega),
    if_pos (by rw [land_pos_fixint (by omega)]; omega)]

theorem deserializeUInt_u8 (host : Endian) (umax du d : Nat)
    (extra : List Nat) :
    deserializeUInt host umax du (UINT8 :: d :: extra) = ⟨none, d, extra⟩ := by
  simp only [deserializeUInt]
  rw [if_pos trivial]

theorem deserializeUInt_u16 (host : Endian) (umax du u : Nat)
    (extra : List Nat) (hn : ¬ umax < 65535) (hu : u < 65536) :
    deserializeUInt host umax du (UINT16 :: (beBytes 2 u ++ extra)) =
      ⟨none, u, extra⟩ := by
  simp only [deserializeUInt, readMultiByteUint]
  rw [if_neg (by decide), if_pos trivial, if_neg hn,
    readMem_full 2 _ _ (length_beBytes 2 u), readWord_def,
    readWord_beBytes host (by
      have : (2 : Nat) ^ (8 * 2) = 65536 := by norm_num
      omega),
    List.drop_left' (length_beBytes 2 u)]

theorem deserializeUInt_u32 (host : Endian) (umax du u : Nat)
    (extra : List Nat) (hn : ¬ umax < 4294967295) (hu : u < 4294967296) :
    deserializeUInt host umax du (UINT32 :: (beBytes 4 u ++ extra)) =
      ⟨none, u, extra⟩ := by
  simp only [deserializeUInt, readMultiByteUint]
  rw [if_neg (by decide), if_neg (by decide), if_pos trivial, if_neg hn,
    readMem_full 4 _ _ (length_beBytes 4 u), readWord_def,
    readWord_beBytes host (by
      have : (2 : Nat) ^ (8 * 4) = 4294967296 := by norm_num
      omega),
    List.drop_left' (length_beBytes 4 u)]

theorem deserializeUInt_u64 (host : Endian) (umax du u : Nat)
    (extra : List Nat) (hn : ¬ umax < 18446744073709551615)
    (hu : u < 18446744073709551616) :
    deserializeUInt host umax du (UINT64 :: (beBytes 8 u ++ extra)) =
      ⟨none, u, extra⟩ := by
  simp only [deserializeUInt, readMultiByteUint]
  rw [if_neg (by decide), if_neg (by decide), if_neg (by decide),
    if_pos trivial, if_neg hn,
    readMem_full 8 _ _ (length_beBytes 8 u), readWord_def,
    readWord_beBytes host (by
      have : (2 : Nat) ^ (8 * 8) = 18446744073709551616 := by norm_num
      omega),
    List.drop_left' (length_beBytes 8 u)]

theorem uint_roundtrip (host : Endian) (umax v du : Nat) (extra : List Nat)
    (hm : umax = 255 ∨ umax = 65535 ∨ umax = 4294967295 ∨
      umax = 18446744073709551615)
    (hv : v ≤ umax) :
    deserializeUInt host umax du (serializeUInt host v ++ extra) =
      ⟨none, v, extra⟩ := by
  simp only [serializeUInt, POS_FIXINT_MAX, writeWord_eq]
  split_ifs with h1 h2 h3 h4
  · simpa using deserializeUInt_posfix host umax du v extra h1
  · simpa using deserializeUInt_u8 host umax du v extra
  · have := deserializeUInt_u16 host umax du v extra (by omega) (by omega)
    simpa using this
  · have := deserializeUInt_u32 host umax du v extra (by omega) (by omega)
    simpa using this
  · have := deserializeUInt_u64 host umax du v extra (by omega) (by omega)
    simpa using this

theorem toSigned_emod_one (v : Int) (h1 : -128 ≤ v) (h2 : v ≤ 127) :
    toSigned 1 ((v % 256).toNat) = v := by
  unfold toSigned
  norm_num
  split_ifs <;> omega

theorem toSigned_emod_two (v : Int) (h1 : -32768 ≤ v) (h2 : v ≤ 32767) :
    toSigned 2 ((v % 65536).toNat) = v := by
  unfold toSigned
  norm_num
  split_ifs <;> omega

theorem toSigned_emod_four (v : Int) (h1 : -2147483648 ≤ v)
    (h2 : v ≤ 2147483647) :
    toSigned 4 ((v % 4294967296).toNat) = v := by
  unfold toSigned
  norm_num
  split_ifs <;> omega

theorem toSigned_emod_eight (v : Int) (h1 : -9223372036854775808 ≤ v)
    (h2 : v ≤ 9223372036854775807) :
    toSigned 8 ((v % 18446744073709551616).toNat) = v := by
  unfold toSigned
  norm_num
  split_ifs <;> omega

theorem deserializeInt_negfix (host : Endian) (imin imax di : Int)
    (b : Nat) (extra : List Nat) (hb1 : 224 ≤ b) (hb2 : b ≤ 255) :
    deserializeInt host imin imax di (b :: extra) =
      ⟨none, toSigned 1 b, extra⟩ := by
  simp only [deserializeInt]
  rw [if_neg (by simp only [INT8]; omega),
    if_neg (by simp only [INT16]; omega),
    if_neg (by simp only [INT32]; omega),
    if_neg (by simp only [INT64]; omega),
    if_pos (by rw [land_neg_fixint (by omega)]; omega)]

theorem deserializeInt_posfix (host : Endian) (imin imax di : Int)
    (b : Nat) (extra : List Nat) (hb : b ≤ 127) :
    deserializeInt host imin imax di (b :: extra) =
      ⟨none, toSigned 1 b, extra⟩ := by
  simp only [deserializeInt]
  rw [if_neg (by simp only [INT8]; omega),
    if_neg (by simp only [INT16]; omega),
    if_neg (by simp only [INT32]; omega),
    if_neg (by simp only [INT64]; omega),
    if_neg (by rw [land_neg_fixint (by omega)]; omega),
    if_pos (by rw [land_pos_fixint (by omega)]; omega)]

theorem deserializeInt_i8 (host : Endian) (imin imax di : Int) (d : Nat)
    (extra : List Nat) :
    deserializeInt host imin imax di (INT8 :: d :: extra) =
      ⟨none, toSigned 1 d, extra⟩ := by
  simp only [deserializeInt]
  rw [if_pos trivial]

theorem deserializeInt_i16 (host : Endian) (imin imax di : Int) (u : Nat)
    (extra : List Nat) (hn : ¬ (imax < 32767 ∨ -32768 < imin))
    (hu : u < 65536) :
    deserializeInt host imin imax di (INT16 :: (beBytes 2 u ++ extra)) =
      ⟨none, toSigned 2 u, extra⟩ := by
  simp only [deserializeInt, readMultiByteInt]
  rw [if_neg (by decide), if_pos trivial, if_neg (by omega),
    readMem_full 2 _ _ (length_beBytes 2 u), readWord_def,
    readWord_beBytes host (by
      have : (2 : Nat) ^ (8 * 2) = 65536 := by norm_num
      omega),
    List.drop_left' (length_beBytes 2 u)]

theorem deserializeInt_i32 (host : Endian) (imin imax di : Int) (u : Nat)
    (extra : List Nat) (hn : ¬ (imax < 2147483647 ∨ -2147483648 < imin))
    (hu : u < 4294967296) :
    deserializeInt host imin imax di (INT32 :: (beBytes 4 u ++ extra)) =
      ⟨none, toSigned 4 u, extra⟩ := by
  simp only [deserializeInt, readMultiByteInt]
  rw [if_neg (by decide), if_neg (by decide), if_pos trivial,
    if_neg (by omega),
    readMem_full 4 _ _ (length_beBytes 4 u), readWord_def,
    readWord_beBytes host (by
      have : (2 : Nat) ^ (8 * 4) = 4294967296 := by norm_num
      omega),
    List.drop_left' (length_beBytes 4 u)]

theorem deserializeInt_i64 (host : Endian) (imin imax di : Int) (u : Nat)
    (extra : List Nat)
    (hn : ¬ (imax < 9223372036854775807 ∨ -9223372036854775808 < imin))
    (hu : u < 18446744073709551616) :
    deserializeInt host imin imax di (INT64 :: (beBytes 8 u ++ extra)) =
      ⟨none, toSigned 8 u, extra⟩ := by
  simp only [deserializeInt, readMultiByteInt]
  rw [if_neg (by decide), if_neg (by decide), if_neg (by decide),
    if_pos trivial, if_neg (by omega),
    readMem_full 8 _ _ (length_beBytes 8 u), readWord_def,
    readWord_beBytes host (by
      have : (2 : Nat) ^ (8 * 8) = 18446744073709551616 := by norm_num
      omega),
    List.drop_left' (length_beBytes 8 u)]

theorem int_roundtrip (host : Endian) (imin imax v di : Int)
    (extra : List Nat)
    (hm : (imin = -128 ∧ imax = 127) ∨ (imin = -32768 ∧ imax = 32767) ∨
      (imin = -2147483648 ∧ imax = 2147483647) ∨
      (imin = -9223372036854775808 ∧ imax = 9223372036854775807))
    (h1 : imin ≤ v) (h2 : v ≤ imax) :
    deserializeInt host imin imax di (serializeInt host v ++ extra) =
      ⟨none, v, extra⟩ := by
  have hb : (0 : Int) ≤ v % 256 ∧ v % 256 < 256 :=
    ⟨Int.emod_nonneg v (by norm_num), Int.emod_lt_of_pos v (by norm_num)⟩
  simp only [serializeInt, NEG_FIXINT_MIN, writeWord_eq]
  split_ifs with hc1 hc2 hc3 hc4 hc5
  · have hd := deserializeInt_negfix host imin imax di (v % 256).toNat extra
      (by omega) (by omega)
    rw [toSigned_emod_one v (by omega) (by omega)] at hd
    simpa using hd
  · have hd := deserializeInt_posfix host imin imax di (v % 256).toNat extra
      (by omega)
    rw [toSigned_emod_one v (by omega) (by omega)] at hd
    simpa using hd
  · have hd := deserializeInt_i8 host imin imax di (v % 256).toNat extra
    rw [toSigned_emod_one v (by omega) (by omega)] at hd
    simpa using hd
  · have hd := deserializeInt_i16 host imin imax di (v % 65536).toNat extra
      (by omega) (by omega)
    rw [toSigned_emod_two v (by omega) (by omega)] at hd
    simpa using hd
  · have hd := deserializeInt_i32 host imin imax di (v % 4294967296).toNat
      extra (by omega) (by omega)
    rw [toSigned_emod_four v (by omega) (by omega)] at hd
    simpa using hd
  · have hd := deserializeInt_i64 host imin imax di
      (v % 18446744073709551616).toNat extra (by omega) (by omega)
    rw [toSigned_emod_eight v (by omega) (by omega)] at hd
    simpa using hd

theorem float32_roundtrip (host : Endian) (bits df : Nat) (extra : List Nat)
    (hb : bits < 4294967296) :
    deserializeFloatF host df (serializeFloat32 host bits ++ extra) =
      ⟨none, bits, extra⟩ := by
  simp only [serializeFloat32, writeWord_eq, List.cons_append,
    deserializeFloatF]
  rw [if_pos trivial,
    readMem_full 4 _ _ (length_beBytes 4 bits), readWord_def,
    readWord_beBytes host (by
      have : (2 : Nat) ^ (8 * 4) = 4294967296 := by norm_num
      omega),
    List.drop_left' (length_beBytes 4 bits)]

theorem float64_roundtrip (host : Endian) (bits dd : Nat) (extra : List Nat)
    (hb : bits < 18446744073709551616) :
    deserializeFloatD host dd (serializeFloat64 host bits ++ extra) =
      ⟨none, bits, extra⟩ := by
  simp only [serializeFloat64, writeWord_eq, List.cons_append,
    deserializeFloatD]
  rw [if_neg (by decide), if_pos trivial,
    readMem_full 8 _ _ (length_beBytes 8 bits), readWord_def,
    readWord_beBytes host (by
      have : (2 : Nat) ^ (8 * 8) = 18446744073709551616 := by norm_num
      omega),
    List.drop_left' (length_beBytes 8 bits)]

theorem string_roundtrip (host : Endian) (s ds enc extra : List Nat)
    (h : serializeString host s = .ok enc) :
    deserializeString host ds (enc ++ extra) = ⟨none, s ++ [0], extra⟩ := by
  unfold serializeString at h
  by_cases h1 : s.length > 4294967295
  · rw [if_pos h1] at h
    exact absurd h (by simp)
  rw [if_neg h1] at h
  by_cases h2 : s.length ≤ FIXSTR_MAX
  · rw [if_pos h2] at h
    injection h with h'
    subst h'
    have h2' : s.length ≤ 31 := by simpa [FIXSTR_MAX] using h2
    rw [lor_fixstr_tag h2']
    simpa using strDecode_fixstr host ds s extra h2'
  rw [if_neg h2] at h
  by_cases h3 : s.length ≤ 255
  · rw [if_pos h3] at h
    injection h with h'
    subst h'
    simpa using strDecode_str8 host ds s extra h3
  rw [if_neg h3] at h
  by_cases h4 : s.length ≤ 65535
  · rw [if_pos h4] at h
    injection h with h'
    subst h'
    rw [writeWord_eq]
    have := strDecode_str16 host ds s extra h4
    simpa [List.append_assoc] using this
  rw [if_neg h4] at h
  injection h with h'
  subst h'
  rw [writeWord_eq]
  have := strDecode_str32 host ds s extra (by omega)
  simpa [List.append_assoc] using this

theorem set_append_cons {α : Type} (pre : List α) (b : α) (t2 : List α)
    (a : α) : (pre ++ b :: t2).set pre.length a = pre ++ a :: t2 := by
  induction pre with
  | nil => rfl
  | cons x xs ih => simp [List.set, ih]

theorem getD_append_len {α : Type} (pre : List α) (b : α) (t2 : List α)
    (dflt : α) : (pre ++ b :: t2).getD pre.length dflt = b := by
  induction pre with
  | nil => rfl
  | cons x xs ih => simpa using ih

theorem listResize_self {α : Type} (dflt : α) (l : List α) :
    listResize dflt l.length l = l := by
  simp [listResize]

/-- the element loop, started on a destination already of full length `n`
and decomposed as the already-decoded prefix `pre` plus a leftover
`tail2`, consumes the encodings of `suf` and fills in `suf`. -/
theorem vecLoop_go {α : Type} (elemDe : α → List Nat → DState α)
    (elemSer : α → List Nat) (dflt : α) :
    ∀ (suf pre tail2 : List α) (extra : List Nat),
      tail2.length = suf.length →
      (∀ a ∈ suf, ∀ (prior : α) (rest2 : List Nat),
        elemDe prior (elemSer a ++ rest2) = ⟨none, a, rest2⟩) →
      vecLoop elemDe dflt (pre.length + suf.length) suf.length pre.length
        (pre ++ tail2) ((suf.map elemSer).flatten ++ extra) =
        ⟨none, pre ++ suf, extra⟩ := by
  intro suf
  induction suf with
  | nil =>
    intro pre tail2 extra hlen helem
    have htail : tail2 = [] := List.eq_nil_of_length_eq_zero hlen
    subst htail
    simp [vecLoop]
  | cons a suf ih =>
    intro pre tail2 extra hlen helem
    obtain ⟨b, t2, rfl⟩ : ∃ b t2, tail2 = b :: t2 := by
      cases tail2 with
      | nil => simp at hlen
      | cons b t2 => exact ⟨b, t2, rfl⟩
    have ht2 : t2.length = suf.length := by
      simpa using hlen
    simp only [List.length_cons, vecLoop]
    have hfull : (pre ++ b :: t2).length = pre.length + (suf.length + 1) := by
      simp
      omega
    have hres : listResize dflt (pre.length + (suf.length + 1))
        (pre ++ b :: t2) = pre ++ b :: t2 := by
      rw [← hfull]
      exact listResize_self dflt (pre ++ b :: t2)
    rw [hres, getD_append_len]
    have hstream : ((a :: suf).map elemSer).flatten ++ extra =
        elemSer a ++ ((suf.map elemSer).flatten ++ extra) := by
      simp
    rw [hstream, helem a (List.mem_cons_self _ _) b
      ((suf.map elemSer).flatten ++ extra)]
    simp only
    rw [set_append_cons]
    have hrec := ih (pre ++ [a]) t2 extra (by simpa using ht2)
      (fun x hx => helem x (List.mem_cons_of_mem _ hx))
    have hn : (pre ++ [a]).length + suf.length =
        pre.length + (suf.length + 1) := by
      simp
      omega
    have hi : (pre ++ [a]).length = pre.length + 1 := by simp
    rw [hn, hi] at hrec
    have happ : (pre ++ [a]) ++ t2 = pre ++ a :: t2 := by simp
    have happ2 : (pre ++ [a]) ++ suf = pre ++ a :: suf := by simp
    rw [happ, happ2] at hrec
    exact hrec

/-- the element loop of the vector decoder, started fresh (empty
destination), decodes the concatenated element encodings of `arr` back to
`arr`. -/
theorem vec_roundtrip {α : Type} (elemDe : α → List Nat → DState α)
    (elemSer : α → List Nat) (dflt : α) (arr : List α) (extra : List Nat)
    (helem : ∀ a ∈ arr, ∀ (prior : α) (rest2 : List Nat),
      elemDe prior (elemSer a ++ rest2) = ⟨none, a, rest2⟩) :
    vecLoop elemDe dflt arr.length arr.length 0 []
      ((arr.map elemSer).flatten ++ extra) = ⟨none, arr, extra⟩ := by
  cases arr with
  | nil => simp [vecLoop]
  | cons a arr2 =>
    simp only [List.length_cons, vecLoop]
    have hres : listResize dflt (arr2.length + 1) ([] : List α) =
        dflt :: List.replicate arr2.length dflt := by
      simp [listResize, List.replicate_succ]
    rw [hres]
    have hstream : ((a :: arr2).map elemSer).flatten ++ extra =
        elemSer a ++ ((arr2.map elemSer).flatten ++ extra) := by
      simp
    rw [hstream]
    have hget : (dflt :: List.replicate arr2.length dflt).getD 0 dflt =
        dflt := rfl
    rw [hget, helem a (List.mem_cons_self _ _) dflt
      ((arr2.map elemSer).flatten ++ extra)]
    simp only
    have hset : (dflt :: List.replicate arr2.length dflt).set 0 a =
        [a] ++ List.replicate arr2.length dflt := rfl
    rw [hset]
    have hrec := vecLoop_go elemDe elemSer dflt arr2 [a]
      (List.replicate arr2.length dflt) extra (by simp)
      (fun x hx => helem x (List.mem_cons_of_mem _ hx))
    simpa [Nat.add_comm] using hrec

theorem serializeArray_fixarr {α : Type} (host : Endian)
    (elemSer : α → List Nat) (arr : List α) (h : arr.length ≤ 15) :
    serializeArray host elemSer arr =
      .ok ((0x90 + arr.length) :: (arr.map elemSer).flatten) := by
  unfold serializeArray
  rw [if_pos h, lor_fixarr_tag h]

theorem toBytesLE_take {w n : Nat} (h : w ≤ n) (v : Nat) :
    (toBytesLE n v).take w = toBytesLE w v := by
  induction w generalizing n v with
  | zero => simp [toBytesLE]
  | succ k ih =>
    cases n with
    | zero => omega
    | succ m =>
      simp only [toBytesLE, List.take_succ_cons]
      rw [ih (by omega)]

/-- on a little-endian host the first 2 bytes of the `uint64_t` temporary
holding `ToBigEndian((uint16_t)len)` are exactly the big-endian count. -/
theorem arr16_header_little (L : Nat) :
    (memBytes Endian.little 8 (ToBigEndian Endian.little 2 L)).take 2 =
      beBytes 2 L := by
  simp only [memBytes, ToBigEndian]
  rw [toBytesLE_take (by omega)]
  simp only [Byteswap, beBytes]
  exact toBytesLE_ofBytesLE_reverse 2 L

theorem arr32_header_little (L : Nat) :
    (memBytes Endian.little 8 (ToBigEndian Endian.little 4 L)).take 4 =
      beBytes 4 L := by
  simp only [memBytes, ToBigEndian]
  rw [toBytesLE_take (by omega)]
  simp only [Byteswap, beBytes]
  exact toBytesLE_ofBytesLE_reverse 4 L

theorem serializeArray_arr16_little {α : Type} (elemSer : α → List Nat)
    (arr : List α) (hgt : 15 < arr.length) (h16 : arr.length ≤ 65535) :
    serializeArray Endian.little elemSer arr =
      .ok (ARR16 :: (beBytes 2 arr.length ++ (arr.map elemSer).flatten)) := by
  unfold serializeArray
  rw [if_neg (by omega), if_pos h16, arr16_header_little]
  simp

theorem serializeArray_arr32_little {α : Type} (elemSer : α → List Nat)
    (arr : List α) (hgt : 65535 < arr.length)
    (h32 : arr.length ≤ 4294967295) :
    serializeArray Endian.little elemSer arr =
      .ok (ARR32 :: (beBytes 4 arr.length ++ (arr.map elemSer).flatten)) := by
  unfold serializeArray
  rw [if_neg (by omega), if_neg (by omega), if_pos h32, arr32_header_little]
  simp

/-- arrays round-trip into a fresh growable destination whenever each
element round-trips; on a big-endian host only up to 15 elements (the
16/32-bit count write is broken there, see the C1 counterexample). -/
theorem array_roundtrip {α : Type} (host : Endian)
    (elemSer : α → List Nat) (elemDe : α → List Nat → DState α) (dflt : α)
    (arr : List α) (encA extra : List Nat)
    (helem : ∀ a ∈ arr, ∀ (prior : α) (rest2 : List Nat),
      elemDe prior (elemSer a ++ rest2) = ⟨none, a, rest2⟩)
    (h : serializeArray host elemSer arr = .ok encA)
    (hbig : host = Endian.big → arr.length ≤ 15) :
    deserializeVector host elemDe dflt [] (encA ++ extra) =
      ⟨none, arr, extra⟩ := by
  by_cases ha : arr.length ≤ 15
  · rw [serializeArray_fixarr host elemSer arr ha] at h
    injection h with h'
    subst h'
    have hd := deserializeVector_fixarr host elemDe dflt []
      arr.length ((arr.map elemSer).flatten ++ extra) ha
    rw [List.cons_append, hd]
    exact vec_roundtrip elemDe elemSer dflt arr extra helem
  cases host with
  | big => exact absurd (hbig rfl) ha
  | little =>
    by_cases h16 : arr.length ≤ 65535
    · rw [serializeArray_arr16_little elemSer arr (by omega) h16] at h
      injection h with h'
      subst h'
      rw [List.cons_append, List.append_assoc,
        deserializeVector_arr16 Endian.little elemDe dflt [] arr.length
          ((arr.map elemSer).flatten ++ extra) h16]
      exact vec_roundtrip elemDe elemSer dflt arr extra helem
    · have h32 : arr.length ≤ 4294967295 := by
        by_contra hc
        unfold serializeArray at h
        rw [if_neg (by omega), if_neg (by omega), if_neg (by omega)] at h
        exact absurd h (by simp)
      rw [serializeArray_arr32_little elemSer arr (by omega) h32] at h
      injection h with h'
      subst h'
      rw [List.cons_append, List.append_assoc,
        deserializeVector_arr32 Endian.little elemDe dflt [] arr.length
          ((arr.map elemSer).flatten ++ extra) h32]
      exact vec_roundtrip elemDe elemSer dflt arr extra helem

/-! ### Claim C1: round-trip -/

/-- Claim C1 (counterexample): the claim asserts that decoding the bytes
of an encoded value into a fresh destination of the same type yields an
equal value, for every supported type.  For strings it fails: encoding
the one-byte string `"a"` and decoding it into a fresh string yields two
bytes (`61 00` — the decoder appends a NUL), which is not equal to the
original.  Additionally, on a big-endian host a 16-element array encodes
with a zero count field (the count is taken from the wrong end of a
`uint64_t` temporary), so its round-trip yields an empty vector. -/
theorem C1_counterexample :
    serializeString Endian.little [97] = Except.ok [0xa1, 97] ∧
    (deserializeString Endian.little [] [0xa1, 97]).err = none ∧
    (deserializeString Endian.little [] [0xa1, 97]).dest = [97, 0] ∧
    ([97, 0] : List Nat) ≠ [97] ∧
    serializeArray Endian.big (fun v => serializeUInt Endian.big v)
      (List.replicate 16 (0 : Nat)) =
        Except.ok ([0xdc, 0, 0] ++ List.replicate 16 0) ∧
    (deserializeVector Endian.big
      (deserializeUInt Endian.big 18446744073709551615) 0 []
      ([0xdc, 0, 0] ++ List.replicate 16 0)).dest = [] := by
  refine ⟨by rfl, by decide, by decide, by decide, by rfl, by decide⟩

/-- Claim C1 (amended): on either host, decoding into a fresh destination
from the bytes of an encoded in-range value recovers the value exactly
for bool, unsigned integers (destination of width 8/16/32/64 holding the
value), signed integers, float and double (bit patterns); for strings the
decoded value is the original payload followed by exactly one extra NUL
byte; arrays of round-trippable elements recover exactly into a fresh
growable destination, on a big-endian host only up to 15 elements
(longer arrays encode a broken count field there — see the
counterexample). -/
theorem C1_theorem {α : Type} (host : Endian) (b db : Bool)
    (v umax du : Nat) (vi imin imax di : Int) (bits32 bits64 df dd : Nat)
    (s ds enc : List Nat) (arr : List α) (elemSer : α → List Nat)
    (elemDe : α → List Nat → DState α) (dflt : α) (encA : List Nat)
    (extra : List Nat) :
    (deserializeBool db (serializeBool b ++ extra) = ⟨none, b, extra⟩) ∧
    (umax = 255 ∨ umax = 65535 ∨ umax = 4294967295 ∨
        umax = 18446744073709551615 → v ≤ umax →
      deserializeUInt host umax du (serializeUInt host v ++ extra) =
        ⟨none, v, extra⟩) ∧
    ((imin = -128 ∧ imax = 127) ∨ (imin = -32768 ∧ imax = 32767) ∨
        (imin = -2147483648 ∧ imax = 2147483647) ∨
        (imin = -9223372036854775808 ∧ imax = 9223372036854775807) →
      imin ≤ vi → vi ≤ imax →
      deserializeInt host imin imax di (serializeInt host vi ++ extra) =
        ⟨none, vi, extra⟩) ∧
    (bits32 < 4294967296 →
      deserializeFloatF host df (serializeFloat32 host bits32 ++ extra) =
        ⟨none, bits32, extra⟩) ∧
    (bits64 < 18446744073709551616 →
      deserializeFloatD host dd (serializeFloat64 host bits64 ++ extra) =
        ⟨none, bits64, extra⟩) ∧
    (serializeString host s = .ok enc →
      deserializeString host ds (enc ++ extra) =
        ⟨none, s ++ [0], extra⟩) ∧
    ((∀ a ∈ arr, ∀ (prior : α) (rest2 : List Nat),
        elemDe prior (elemSer a ++ rest2) = ⟨none, a, rest2⟩) →
      serializeArray host elemSer arr = .ok encA →
      (host = Endian.big → arr.length ≤ 15) →
      deserializeVector host elemDe dflt [] (encA ++ extra) =
        ⟨none, arr, extra⟩) :=
  ⟨bool_roundtrip b db extra,
   fun hm hv => uint_roundtrip host umax v du extra hm hv,
   fun hm h1 h2 => int_roundtrip host imin imax vi di extra hm h1 h2,
   fun hb => float32_roundtrip host bits32 df extra hb,
   fun hb => float64_roundtrip host bits64 dd extra hb,
   fun h => string_roundtrip host s ds enc extra h,
   fun helem h hbig =>
     array_roundtrip host elemSer elemDe dflt arr encA extra helem h hbig⟩

/-- Claim C1 (witness): the unsigned value 300 encoded from any source
width and decoded into a fresh `uint16_t` destination is recovered. -/
theorem C1_witness :
    deserializeUInt Endian.little 65535 0
      (serializeUInt Endian.little 300 ++ [9]) = ⟨none, 300, [9]⟩ :=
  (C1_theorem (α := Nat) Endian.little true true 300 65535 0 0 (-128) 127 0
    0 0 0 0 [] [] [] [] (fun _ => []) (fun a l => ⟨none, a, l⟩) 0 []
    [9]).2.1 (by decide) (by decide)

end Pack
